import Mathlib

/-!
Verification of the math-segment protection pipeline and the chat-widget
handlers of `static/js/main.js`.

Strings are modelled as `List Char`.  JavaScript's global-regex `replace`
is modelled by a left-to-right scan that, at each position, tries to match
the pattern anchored there; on a match the placeholder is emitted into the
output (never rescanned) and scanning resumes after the match, exactly as
`String.prototype.replace` with a `/g` regex and a callback does.
-/

namespace MainJs

/-! ## Decimal rendering of indices (the `@@MATH${id}@@` template literal) -/

/-- One decimal digit character. -/
def digitChar (n : Nat) : Char :=
  if n = 0 then '0' else if n = 1 then '1' else if n = 2 then '2'
  else if n = 3 then '3' else if n = 4 then '4' else if n = 5 then '5'
  else if n = 6 then '6' else if n = 7 then '7' else if n = 8 then '8' else '9'

/-- Fuelled decimal printer (most significant digit first). -/
def natDigitsGo : Nat → Nat → List Char
  | 0, _ => []
  | f + 1, n => if n < 10 then [digitChar n] else natDigitsGo f (n / 10) ++ [digitChar (n % 10)]

/-- Decimal digits of `n`, as JavaScript string interpolation prints a small integer. -/
def natDigits (n : Nat) : List Char := natDigitsGo (n + 1) n

/-- Decimal value of a digit string, as JavaScript `Number` on an all-digit string. -/
def digitsToNat (ds : List Char) : Nat := ds.foldl (fun a c => a * 10 + (c.toNat - 48)) 0

/-- The fixed placeholder header `@@MATH`. -/
def TAG : List Char := ['@', '@', 'M', 'A', 'T', 'H']

/-- The placeholder token `@@MATH<id>@@` inserted by `extractMathSegments`. -/
def phList (n : Nat) : List Char :=
  '@' :: '@' :: 'M' :: 'A' :: 'T' :: 'H' :: (natDigits n ++ ['@', '@'])

/-- `noTag s` holds when the six-character header `@@MATH` occurs nowhere in `s`. -/
def noTag : List Char → Bool
  | [] => true
  | c :: cs => !(TAG.isPrefixOf (c :: cs)) && noTag cs

/-! ## `restoreMathSegments` (main.js lines 213-215)

`html.replace(/@@MATH(\d+)@@/g, (_, i) => math[Number(i)] || '')`:
the regex matches `@@MATH`, then a maximal nonempty digit run (the digit
class cannot match `@`, so the greedy `\d+` stops exactly at the first
non-digit, which must then start the closing `@@`), then `@@`. -/

/-- Anchored match of `/@@MATH(\d+)@@/` at the head of `s`:
returns the digit group and the rest of the input after the match. -/
def matchPlaceholder (s : List Char) : Option (List Char × List Char) :=
  if TAG.isPrefixOf s then
    let rest := s.drop 6
    let ds := rest.takeWhile (fun c => c.isDigit)
    let r := rest.dropWhile (fun c => c.isDigit)
    if ds = [] then none
    else
      match r with
      | a :: b :: r' => if a = '@' ∧ b = '@' then some (ds, r') else none
      | _ => none
  else none

/-- `hasToken s` holds when some full placeholder token `@@MATH<digits>@@` occurs in `s`. -/
def hasToken : List Char → Bool
  | [] => false
  | c :: cs => (matchPlaceholder (c :: cs)).isSome || hasToken cs

/-- Fuelled scan of `String.prototype.replace` for the placeholder regex.
Replacement text (`math[Number(i)] || ''`, i.e. the stored segment or `''`
when the index is out of range or the segment is empty) is emitted to the
output and never rescanned. -/
def restoreGo (math : List (List Char)) : Nat → List Char → List Char
  | 0, s => s
  | _ + 1, [] => []
  | f + 1, c :: cs =>
      match matchPlaceholder (c :: cs) with
      | some (ds, r) => math.getD (digitsToNat ds) [] ++ restoreGo math f r
      | none => c :: restoreGo math f cs

/-- `restoreMathSegments(html, math)` from main.js. -/
def restoreMathSegments (html : List Char) (math : List (List Char)) : List Char :=
  restoreGo math html.length html

/-! ## `extractMathSegments` (main.js lines 191-210) -/

/-- Search for the first adjacent occurrence of the two-character sequence `a b`;
returns the text before it and the text after it.  Used for the lazy bodies
`[\s\S]*?` of the `$$...$$` and `\[...\]` patterns, whose lazy quantifier stops
at the first closing delimiter. -/
def findSub2 (a b : Char) : List Char → Option (List Char × List Char)
  | x :: y :: rest =>
      if x = a ∧ y = b then some ([], rest)
      else
        match findSub2 a b (y :: rest) with
        | some (p, r) => some (x :: p, r)
        | none => none
  | _ => none

/-- Body scan for `/\$[^$\n]+\$/`: characters up to the first `$`, failing on a
newline or end of input before the closing `$`.  (The character class excludes
`$`, so backtracking cannot produce any other division.) -/
def span3 : List Char → Option (List Char × List Char)
  | [] => none
  | c :: cs =>
      if c = '$' then some ([], cs)
      else if c = '\n' then none
      else
        match span3 cs with
        | some (p, r) => some (c :: p, r)
        | none => none

/-- Body scan for `/\\\([^\\]*?\\\)/`: non-backslash characters up to the first
backslash, which must start the closing `\)` (the class excludes `\`, so the
lazy body cannot extend past the first backslash). -/
def span4 : List Char → Option (List Char × List Char)
  | [] => none
  | c :: cs =>
      if c = '\\' then
        match cs with
        | c2 :: r => if c2 = ')' then some ([], r) else none
        | _ => none
      else
        match span4 cs with
        | some (p, r) => some (c :: p, r)
        | none => none

/-- The four LaTeX span patterns of `extractMathSegments`, in source order. -/
inductive Pat where
  | dollar2   -- /\$\$[\s\S]*?\$\$/g
  | bracket   -- /\\\[[\s\S]*?\\\]/g
  | dollar1   -- /\$[^$\n]+\$/g
  | paren     -- /\\\([^\\]*?\\\)/g
deriving DecidableEq

/-- Anchored match of one pattern at the head of the input; on success returns
the exact matched substring and the rest of the input. -/
def matchAt : Pat → List Char → Option (List Char × List Char)
  | .dollar2, c1 :: c2 :: rest =>
      if c1 = '$' ∧ c2 = '$' then
        match findSub2 '$' '$' rest with
        | some (body, r) => some ('$' :: '$' :: (body ++ ['$', '$']), r)
        | none => none
      else none
  | .bracket, c1 :: c2 :: rest =>
      if c1 = '\\' ∧ c2 = '[' then
        match findSub2 '\\' ']' rest with
        | some (body, r) => some ('\\' :: '[' :: (body ++ ['\\', ']']), r)
        | none => none
      else none
  | .dollar1, c1 :: rest =>
      if c1 = '$' then
        match span3 rest with
        | some (body, r) => if body = [] then none else some ('$' :: (body ++ ['$']), r)
        | none => none
      else none
  | .paren, c1 :: c2 :: rest =>
      if c1 = '\\' ∧ c2 = '(' then
        match span4 rest with
        | some (body, r) => some ('\\' :: '(' :: (body ++ ['\\', ')']), r)
        | none => none
      else none
  | _, _ => none

/-- Fuelled scan of one `replaced.replace(re, m => ...)` pass: at each position
try the pattern; on a match, push the matched text onto the segment table,
emit `@@MATH<id>@@` with `id` the table length before the push, and resume
after the match. -/
def passGo (pat : Pat) : Nat → List Char → List (List Char) → List Char × List (List Char)
  | 0, s, math => (s, math)
  | _ + 1, [], math => ([], math)
  | f + 1, c :: cs, math =>
      match matchAt pat (c :: cs) with
      | some (t, r) =>
          let out := passGo pat f r (math ++ [t])
          (phList math.length ++ out.1, out.2)
      | none =>
          let out := passGo pat f cs math
          (c :: out.1, out.2)

/-- One full pattern pass over a string. -/
def passRun (pat : Pat) (s : List Char) (math : List (List Char)) :
    List Char × List (List Char) :=
  passGo pat s.length s math

/-- `extractMathSegments(text)` from main.js: the four passes applied
sequentially, threading the rewritten text and the shared segment table. -/
def extractMathSegments (text : List Char) : List Char × List (List Char) :=
  let s1 := passRun .dollar2 text []
  let s2 := passRun .bracket s1.1 s1.2
  let s3 := passRun .dollar1 s2.1 s2.2
  passRun .paren s3.1 s3.2

/-! ## `escapeHtml` (main.js lines 180-188) -/

/-- Replacement for one character under `/[&<>"']/g`. -/
def escapeChar (c : Char) : List Char :=
  if c = '&' then ['&', 'a', 'm', 'p', ';']
  else if c = '<' then ['&', 'l', 't', ';']
  else if c = '>' then ['&', 'g', 't', ';']
  else if c = '"' then ['&', 'q', 'u', 'o', 't', ';']
  else if c = '\'' then ['&', '#', '0', '3', '9', ';']
  else [c]

/-- `escapeHtml(str)` from main.js. -/
def escapeHtml : List Char → List Char
  | [] => []
  | c :: cs => escapeChar c ++ escapeHtml cs

/-! ## Chat panel model (main.js lines 50-176, 217-277, 282-306)

The visible panel is a list of bubbles.  External collaborators are
parameters: the Markdown renderer (`marked.parse`) is an arbitrary function
`render`, and `JSON.stringify(data)` of a `/chat` response body is carried as
an explicit field of the fetch outcome. -/

/-- JavaScript `String.prototype.trim`: strip whitespace from both ends. -/
def jsTrim (s : List Char) : List Char :=
  ((s.dropWhile (fun c => c.isWhitespace)).reverse.dropWhile (fun c => c.isWhitespace)).reverse

/-- One visible bubble of the chat panel. -/
inductive Bubble where
  | user (html : List Char)
  | typing
  | assistant (html : List Char)
  | connError
deriving DecidableEq

/-- Lines 50-80: the synchronous part of the submit handler.  Trim the input;
an empty result returns before any DOM insertion or network call; otherwise
append the escaped user bubble and the typing placeholder and send the text. -/
def submitStep (input : List Char) (msgs : List Bubble) : List Bubble × Option (List Char) :=
  let text := jsTrim input
  if text = [] then (msgs, none)
  else (msgs ++ [Bubble.user (escapeHtml text), Bubble.typing], some text)

/-- `document.getElementById(typingId)`/`remove()`: drop the first typing bubble. -/
def removeFirstTyping : List Bubble → List Bubble
  | [] => []
  | b :: bs => if b = Bubble.typing then bs else b :: removeFirstTyping bs

/-- Lines 100-103: reply selection.  `output`/`reply` carry `some s` exactly
when the JSON field is present with a string value `s` (the `typeof` checks);
`stringified` is `JSON.stringify(data)`. -/
def replyRaw (output reply : Option (List Char)) (stringified : List Char) : List Char :=
  match output with
  | some s => s
  | none =>
      match reply with
      | some s => s
      | none => stringified

/-- Lines 117-128 (and 246-248): Extractor, external Markdown render, Restorer. -/
def renderReply (render : List Char → List Char) (text : List Char) : List Char :=
  let e := extractMathSegments text
  restoreMathSegments (render e.1) e.2

/-- Outcome of the `/chat` fetch: rejected promise, non-2xx status, or a parsed
JSON body (its two recognised fields and its serialization). -/
inductive FetchResult where
  | netError
  | httpError
  | ok (output reply : Option (List Char)) (stringified : List Char)

/-- Lines 93-173: the asynchronous part of the submit handler, applied to the
panel as it stands when the fetch settles. -/
def resolveChat (render : List Char → List Char) (msgs : List Bubble) :
    FetchResult → List Bubble
  | .netError => removeFirstTyping msgs ++ [Bubble.connError]
  | .httpError => removeFirstTyping msgs ++ [Bubble.connError]
  | .ok o rp st =>
      let text := jsTrim (replyRaw o rp st)
      let msgs' := removeFirstTyping msgs
      if text = [] then msgs'
      else msgs' ++ [Bubble.assistant (renderReply render text)]

/-- One persisted conversation turn. -/
structure Turn where
  role : List Char
  content : List Char

/-- Lines 230-262: bubbles contributed by one history turn (possibly none). -/
def renderTurn (render : List Char → List Char) (t : Turn) : List Bubble :=
  if t.role = "human".data then [Bubble.user (escapeHtml t.content)]
  else if t.role = "ai".data then
    let html := renderReply render (jsTrim t.content)
    if html = [] then [] else [Bubble.assistant html]
  else []

/-- All turns, in the order received. -/
def renderTurns (render : List Char → List Char) (hist : List Turn) : List Bubble :=
  (hist.map (renderTurn render)).flatten

/-- Outcome of the `/chat_history` fetch: `fail` covers a rejected promise,
a non-2xx status and an unparsable body; a missing `history` field is `ok []`. -/
inductive HistResult where
  | fail
  | ok (history : List Turn)

/-- Lines 217-277: history replay on initial load. -/
def historyLoad (render : List Char → List Char) (initial : List Bubble) :
    HistResult → List Bubble
  | .fail => initial
  | .ok hist => if hist.isEmpty then initial else renderTurns render hist

/-- Outcome of the `/clear_history` fetch. -/
inductive ClearResult where
  | fail
  | ok

/-- The fixed text of the post-clear assistant message (line 299). -/
def clearedMessage : List Char :=
  "Conversation cleared. What would you like to ask next?".data

/-- Lines 282-306: the clear-history click handler. -/
def clearHistory (msgs : List Bubble) : ClearResult → List Bubble
  | .fail => msgs
  | .ok => [Bubble.assistant clearedMessage]

/-! ## Decomposition data for the round-trip proof

A run of the extractor is tracked as an alternation of literal pieces and
placeholder tokens. -/

/-- One piece of the rewritten text: a literal fragment or a token index. -/
inductive Item where
  | lit (p : List Char)
  | tok (k : Nat)

/-- Whether an item is a literal piece. -/
def Item.isLit : Item → Bool
  | .lit _ => true
  | .tok _ => false

/-- The text an item contributes to the rewritten string. -/
def renderItem : Item → List Char
  | .lit p => p
  | .tok k => phList k

/-- The rewritten string of a decomposition. -/
def renderD (D : List Item) : List Char := (D.map renderItem).flatten

/-- The text an item restores to under segment table `m`. -/
def restoredItem (m : List (List Char)) : Item → List Char
  | .lit p => p
  | .tok k => m.getD k []

/-- The restored string of a decomposition. -/
def restoredD (m : List (List Char)) (D : List Item) : List Char :=
  (D.map (restoredItem m)).flatten

/-- No literal piece contains the `@@MATH` header. -/
def litOkD (D : List Item) : Prop := ∀ p, Item.lit p ∈ D → noTag p = true

/-- All token indices are below `n`. -/
def tokLtD (n : Nat) (D : List Item) : Prop := ∀ k, Item.tok k ∈ D → k < n

/-- No two adjacent literal pieces. -/
def altOk : List Item → Bool
  | [] => true
  | [_] => true
  | a :: b :: rest => !(a.isLit && b.isLit) && altOk (b :: rest)

/-- Prepend one character to a decomposition, merging into a leading literal. -/
def consChar (c : Char) : List Item → List Item
  | Item.lit q :: D => Item.lit (c :: q) :: D
  | D => Item.lit [c] :: D

/-! # Lemmas -/

/-! ## Generic helpers -/

theorem isPre_iff (l₁ l₂ : List Char) : l₁.isPrefixOf l₂ = true ↔ ∃ t, l₁ ++ t = l₂ := by
  induction l₁ generalizing l₂ with
  | nil => simp [List.isPrefixOf]
  | cons a as ih =>
    cases l₂ with
    | nil => simp [List.isPrefixOf]
    | cons b bs =>
      simp only [List.isPrefixOf, Bool.and_eq_true, beq_iff_eq, ih, List.cons_append,
        List.cons.injEq]
      constructor
      · rintro ⟨rfl, t, rfl⟩; exact ⟨t, rfl, rfl⟩
      · rintro ⟨t, rfl, rfl⟩; exact ⟨rfl, t, rfl⟩

theorem noTag_cons (c : Char) (cs : List Char) :
    noTag (c :: cs) = (!(TAG.isPrefixOf (c :: cs)) && noTag cs) := rfl

theorem noTag_tail {c : Char} {cs : List Char} (h : noTag (c :: cs) = true) :
    noTag cs = true := by
  rw [noTag_cons, Bool.and_eq_true] at h
  exact h.2

theorem noTag_head {c : Char} {cs : List Char} (h : noTag (c :: cs) = true) :
    TAG.isPrefixOf (c :: cs) = false := by
  rw [noTag_cons, Bool.and_eq_true, Bool.not_eq_true'] at h
  exact h.1

theorem noTag_append_left {a b : List Char} (h : noTag (a ++ b) = true) :
    noTag a = true := by
  induction a with
  | nil => rfl
  | cons c a' ih =>
    rw [List.cons_append] at h
    rw [noTag_cons, Bool.and_eq_true, Bool.not_eq_true']
    refine ⟨?_, ih (noTag_tail h)⟩
    by_contra hp
    rw [Bool.not_eq_false, isPre_iff] at hp
    obtain ⟨t, ht⟩ := hp
    have hpre : TAG.isPrefixOf (c :: (a' ++ b)) = true :=
      (isPre_iff _ _).mpr ⟨t ++ b, by rw [← List.append_assoc, ht]; rfl⟩
    rw [noTag_head h] at hpre
    exact Bool.false_ne_true hpre

theorem noTag_append_right {a b : List Char} (h : noTag (a ++ b) = true) :
    noTag b = true := by
  induction a with
  | nil => exact h
  | cons c a' ih => exact ih (noTag_tail h)

theorem noTag_no_occurrence {s : List Char} (h : noTag s = true) :
    ∀ u v, s ≠ u ++ TAG ++ v := by
  intro u
  induction u generalizing s with
  | nil =>
    intro v hs
    have hp : TAG.isPrefixOf s = true := (isPre_iff _ _).mpr ⟨v, by rw [hs]; rfl⟩
    rcases s with _ | ⟨c, cs⟩
    · simp [TAG] at hs
    · rw [noTag_head h] at hp
      exact Bool.false_ne_true hp
  | cons x u' ih =>
    intro v hs
    rcases s with _ | ⟨c, cs⟩
    · simp at hs
    · rw [List.cons_append, List.cons_append, List.cons.injEq] at hs
      exact ih (noTag_tail h) v hs.2

theorem noTag_single (c : Char) : noTag [c] = true := by
  rw [noTag_cons]
  have : TAG.isPrefixOf [c] = false := by
    by_contra hp
    rw [Bool.not_eq_false, isPre_iff] at hp
    obtain ⟨t, ht⟩ := hp
    simp [TAG] at ht
  rw [this]
  rfl

/-! ## Digits and placeholder tokens -/

theorem digitChar_isDigit (n : Nat) : (digitChar n).isDigit = true := by
  unfold digitChar
  split_ifs <;> decide

theorem digitChar_toNat {n : Nat} (h : n < 10) : (digitChar n).toNat = 48 + n := by
  interval_cases n <;> decide

theorem isDigit_ne {c : Char} (h : c.isDigit = true) :
    c ≠ '@' ∧ c ≠ '$' ∧ c ≠ '\\' := by
  refine ⟨?_, ?_, ?_⟩ <;> rintro rfl <;> exact absurd h (by decide)

theorem digitsToNat_append1 (xs : List Char) (c : Char) :
    digitsToNat (xs ++ [c]) = digitsToNat xs * 10 + (c.toNat - 48) := by
  simp [digitsToNat, List.foldl_append]

theorem natDigitsGo_spec :
    ∀ f n, 0 < f → n < 10 ^ f →
      natDigitsGo f n ≠ [] ∧ (∀ c ∈ natDigitsGo f n, c.isDigit = true) ∧
        digitsToNat (natDigitsGo f n) = n := by
  intro f
  induction f with
  | zero => omega
  | succ f ih =>
    intro n _ hn
    by_cases h10 : n < 10
    · refine ⟨by simp [natDigitsGo, h10], ?_, ?_⟩
      · intro c hc
        simp [natDigitsGo, h10] at hc
        rw [hc]
        exact digitChar_isDigit n
      · simp [natDigitsGo, h10, digitsToNat]
        rw [digitChar_toNat h10]
        omega
    · have hf : 0 < f := by
        rcases Nat.eq_zero_or_pos f with rfl | h
        · simp at hn; omega
        · exact h
      have hdiv : n / 10 < 10 ^ f := by
        rw [Nat.div_lt_iff_lt_mul (by norm_num)]
        calc n < 10 ^ (f + 1) := hn
          _ = 10 ^ f * 10 := by ring
      obtain ⟨h1, h2, h3⟩ := ih (n / 10) hf hdiv
      have hstep : natDigitsGo (f + 1) n =
          natDigitsGo f (n / 10) ++ [digitChar (n % 10)] := by
        simp [natDigitsGo, h10]
      refine ⟨by simp [hstep], ?_, ?_⟩
      · intro c hc
        rw [hstep, List.mem_append] at hc
        rcases hc with hc | hc
        · exact h2 c hc
        · simp at hc
          rw [hc]
          exact digitChar_isDigit _
      · rw [hstep, digitsToNat_append1, h3, digitChar_toNat (Nat.mod_lt n (by norm_num))]
        omega

theorem lt_ten_pow (n : Nat) : n < 10 ^ (n + 1) :=
  calc n < 2 ^ n := Nat.lt_two_pow n
    _ ≤ 10 ^ n := Nat.pow_le_pow_left (by norm_num) n
    _ < 10 ^ (n + 1) := Nat.pow_lt_pow_right (by norm_num) (Nat.lt_succ_self n)

theorem natDigits_ne_nil (n : Nat) : natDigits n ≠ [] :=
  (natDigitsGo_spec (n + 1) n (Nat.succ_pos n) (lt_ten_pow n)).1

theorem natDigits_digits (n : Nat) : ∀ c ∈ natDigits n, c.isDigit = true :=
  (natDigitsGo_spec (n + 1) n (Nat.succ_pos n) (lt_ten_pow n)).2.1

theorem digitsToNat_natDigits (n : Nat) : digitsToNat (natDigits n) = n :=
  (natDigitsGo_spec (n + 1) n (Nat.succ_pos n) (lt_ten_pow n)).2.2

theorem phList_append (n : Nat) (z : List Char) :
    phList n ++ z = TAG ++ (natDigits n ++ ('@' :: '@' :: z)) := by
  simp [phList, TAG]

theorem phList_chars {n : Nat} {c : Char} (h : c ∈ phList n) :
    c ≠ '$' ∧ c ≠ '\\' := by
  simp only [phList, List.mem_cons, List.mem_append, List.mem_singleton] at h
  rcases h with rfl | rfl | rfl | rfl | rfl | rfl | h | rfl | h
  · exact ⟨by decide, by decide⟩
  · exact ⟨by decide, by decide⟩
  · exact ⟨by decide, by decide⟩
  · exact ⟨by decide, by decide⟩
  · exact ⟨by decide, by decide⟩
  · exact ⟨by decide, by decide⟩
  · exact ⟨(isDigit_ne (natDigits_digits n c h)).2.1, (isDigit_ne (natDigits_digits n c h)).2.2⟩
  · exact ⟨by decide, by decide⟩
  · simp at h
    rw [h]
    exact ⟨by decide, by decide⟩

theorem phList_length (n : Nat) : 9 ≤ (phList n).length := by
  have h := natDigits_ne_nil n
  have : 1 ≤ (natDigits n).length := List.length_pos.mpr h
  simp [phList]
  omega

theorem phList_take6 (n : Nat) : (phList n).take 6 = TAG := rfl

/-! ## Inversion of the placeholder matcher -/

theorem takeWhile_digits (ds x : List Char) (h : ∀ c ∈ ds, c.isDigit = true) :
    (ds ++ '@' :: x).takeWhile (fun c => c.isDigit) = ds ∧
    (ds ++ '@' :: x).dropWhile (fun c => c.isDigit) = '@' :: x := by
  induction ds with
  | nil =>
    constructor
    · rw [List.nil_append, List.takeWhile_cons_of_neg]
      decide
    · rw [List.nil_append, List.dropWhile_cons_of_neg]
      decide
  | cons d ds' ih =>
    have hd : d.isDigit = true := h d (List.mem_cons_self d ds')
    obtain ⟨ih1, ih2⟩ := ih (fun c hc => h c (List.mem_cons_of_mem d hc))
    constructor
    · rw [List.cons_append, List.takeWhile_cons_of_pos hd, ih1]
    · rw [List.cons_append, List.dropWhile_cons_of_pos hd, ih2]

theorem matchPlaceholder_token {ds : List Char} (r : List Char)
    (h1 : ds ≠ []) (h2 : ∀ c ∈ ds, c.isDigit = true) :
    matchPlaceholder (TAG ++ ds ++ '@' :: '@' :: r) = some (ds, r) := by
  have hpre : TAG.isPrefixOf (TAG ++ ds ++ '@' :: '@' :: r) = true :=
    (isPre_iff _ _).mpr ⟨ds ++ '@' :: '@' :: r, by rw [List.append_assoc]⟩
  have hdrop : (TAG ++ ds ++ '@' :: '@' :: r).drop 6 = ds ++ '@' :: '@' :: r := by
    rw [List.append_assoc]
    exact List.drop_left' rfl
  obtain ⟨htake, hdropw⟩ := takeWhile_digits ds ('@' :: r) h2
  unfold matchPlaceholder
  rw [hpre]
  simp only [if_true, hdrop, htake, hdropw]
  rw [if_neg h1]
  rfl

theorem matchPlaceholder_some_tag {s : List Char} {x : List Char × List Char}
    (h : matchPlaceholder s = some x) : ∃ w, TAG ++ w = s := by
  by_cases hp : TAG.isPrefixOf s = true
  · exact (isPre_iff _ _).mp hp
  · unfold matchPlaceholder at h
    rw [Bool.not_eq_true] at hp
    rw [hp] at h
    simp at h

theorem matchPlaceholder_eq {s ds r : List Char}
    (h : matchPlaceholder s = some (ds, r)) :
    s = TAG ++ ds ++ '@' :: '@' :: r ∧ ds ≠ [] ∧ ∀ c ∈ ds, c.isDigit = true := by
  obtain ⟨w, hw⟩ := matchPlaceholder_some_tag h
  subst hw
  have hpre : TAG.isPrefixOf (TAG ++ w) = true := (isPre_iff _ _).mpr ⟨w, rfl⟩
  have hdrop : (TAG ++ w).drop 6 = w := List.drop_left' rfl
  unfold matchPlaceholder at h
  rw [hpre] at h
  simp only [if_true, hdrop] at h
  by_cases hds : w.takeWhile (fun c => c.isDigit) = []
  · rw [if_pos hds] at h
    simp at h
  · rw [if_neg hds] at h
    have hdig : ∀ c ∈ w.takeWhile (fun c => c.isDigit), c.isDigit = true :=
      fun c hc => List.mem_takeWhile_imp hc
    rcases hwd : w.dropWhile (fun c => c.isDigit) with _ | ⟨a, tl⟩
    · rw [hwd] at h
      simp at h
    · rcases tl with _ | ⟨b, r'⟩
      · rw [hwd] at h
        simp at h
      · rw [hwd] at h
        dsimp only at h
        by_cases hab : a = '@' ∧ b = '@'
        · rw [if_pos hab] at h
          injection h with h
          injection h with h1 h2
          subst h1
          subst h2
          refine ⟨?_, hds, hdig⟩
          have hsplit : w.takeWhile (fun c => c.isDigit) ++
              w.dropWhile (fun c => c.isDigit) = w := List.takeWhile_append_dropWhile _ _
          rw [List.append_assoc]
          conv_lhs => rw [← hsplit]
          rw [hwd, hab.1, hab.2]
        · rw [if_neg hab] at h
          simp at h

/-- If the header `@@MATH` starts again somewhere inside `x ++ @@MATH...`,
then either it starts exactly at the seam (`x = []`) or `x` itself starts
with the header: the header has no nontrivial self-overlap. -/
theorem tag_resolve {w x y : List Char} (h : TAG ++ w = x ++ (TAG ++ y)) :
    x = [] ∨ ∃ x', TAG ++ x' = x := by
  rcases Nat.eq_zero_or_pos x.length with hx | hx
  · left
    exact List.eq_nil_of_length_eq_zero hx
  right
  rcases Nat.lt_or_ge x.length 6 with hlt | hge
  · exfalso
    have htake : TAG.take x.length = x := by
      have := congrArg (List.take x.length) h
      rw [List.take_append_eq_append_take, List.take_append_eq_append_take] at this
      simp only [List.take_length, Nat.sub_self, List.take_zero, List.append_nil] at this
      rw [show TAG.length = 6 from rfl] at this
      rw [Nat.sub_eq_zero_of_le (Nat.le_of_lt hlt), List.take_zero, List.append_nil] at this
      exact this
    have hdrop : TAG.drop x.length ++ w = TAG ++ y := by
      have := congrArg (List.drop x.length) h
      rw [List.drop_append_eq_append_drop, List.drop_append_eq_append_drop] at this
      simp only [List.drop_length, Nat.sub_self, List.drop_zero, List.nil_append] at this
      rw [show TAG.length = 6 from rfl] at this
      rw [Nat.sub_eq_zero_of_le (Nat.le_of_lt hlt), List.drop_zero] at this
      exact this
    have hlen : (TAG.drop x.length).length = 6 - x.length := by
      simp [TAG]
    have heq : TAG.drop x.length = TAG.take (6 - x.length) := by
      have := congrArg (List.take (6 - x.length)) hdrop
      rw [List.take_append_eq_append_take, List.take_append_eq_append_take] at this
      rw [hlen, Nat.sub_self, List.take_zero, List.append_nil] at this
      rw [show TAG.length = 6 from rfl] at this
      rw [Nat.sub_eq_zero_of_le (by omega : 6 - x.length ≤ 6), List.take_zero,
        List.append_nil] at this
      rw [← this, List.take_of_length_le (by omega)]
    have : TAG.drop x.length ≠ TAG.take (6 - x.length) := by
      have h1 : 1 ≤ x.length := hx
      have h5 : x.length ≤ 5 := by omega
      interval_cases hxc : x.length <;> decide
    exact this heq
  · have htake : TAG = x.take 6 := by
      have := congrArg (List.take 6) h
      rw [List.take_append_eq_append_take, List.take_append_eq_append_take] at this
      rw [show TAG.length = 6 from rfl] at this
      simp only [Nat.sub_self, List.take_zero, List.append_nil, List.take_length] at this
      rw [List.take_of_length_le (by rfl), Nat.sub_eq_zero_of_le hge, List.take_zero,
        List.append_nil] at this
      exact this
    exact ⟨x.drop 6, by rw [htake]; exact List.take_append_drop 6 x⟩

/-! ## Behaviour of the restorer -/

theorem restoreGo_nil (m : List (List Char)) : ∀ f, restoreGo m f [] = [] := by
  intro f
  cases f <;> rfl

theorem length_of_match {c : Char} {cs ds r : List Char}
    (h : matchPlaceholder (c :: cs) = some (ds, r)) : r.length ≤ cs.length := by
  obtain ⟨he, hne, _⟩ := matchPlaceholder_eq h
  have := congrArg List.length he
  simp [TAG] at this
  have hds : 1 ≤ ds.length := List.length_pos.mpr hne
  omega

theorem restoreGo_fuel (m : List (List Char)) :
    ∀ f1 f2 s, s.length ≤ f1 → s.length ≤ f2 → restoreGo m f1 s = restoreGo m f2 s := by
  intro f1
  induction f1 with
  | zero =>
    intro f2 s h1 _
    have hs : s = [] := List.eq_nil_of_length_eq_zero (Nat.le_zero.mp h1)
    subst hs
    rw [restoreGo_nil, restoreGo_nil]
  | succ f ih =>
    intro f2 s h1 h2
    cases s with
    | nil => rw [restoreGo_nil, restoreGo_nil]
    | cons c cs =>
      cases f2 with
      | zero => simp at h2
      | succ f2' =>
        simp only [List.length_cons, Nat.succ_le_succ_iff] at h1 h2
        cases hm : matchPlaceholder (c :: cs) with
        | some x =>
          obtain ⟨ds, r⟩ := x
          have hr : r.length ≤ cs.length := length_of_match hm
          simp only [restoreGo, hm]
          rw [ih f2' r (le_trans hr h1) (le_trans hr h2)]
        | none =>
          simp only [restoreGo, hm]
          rw [ih f2' cs h1 h2]

theorem restoreRun_nil (m : List (List Char)) : restoreMathSegments [] m = [] := rfl

theorem restoreRun_match {s ds r : List Char} {m : List (List Char)}
    (h : matchPlaceholder s = some (ds, r)) :
    restoreMathSegments s m = m.getD (digitsToNat ds) [] ++ restoreMathSegments r m := by
  cases s with
  | nil =>
    exfalso
    obtain ⟨w, hw⟩ := matchPlaceholder_some_tag h
    simp [TAG] at hw
  | cons c cs =>
    have hr : r.length ≤ cs.length := length_of_match h
    unfold restoreMathSegments
    simp only [List.length_cons]
    simp only [restoreGo, h]
    rw [restoreGo_fuel m cs.length r.length r hr (le_refl _)]

theorem restoreRun_nomatch {c : Char} {cs : List Char} {m : List (List Char)}
    (h : matchPlaceholder (c :: cs) = none) :
    restoreMathSegments (c :: cs) m = c :: restoreMathSegments cs m := by
  unfold restoreMathSegments
  simp only [List.length_cons]
  simp only [restoreGo, h]

theorem noTag_hasToken {s : List Char} (h : noTag s = true) : hasToken s = false := by
  induction s with
  | nil => rfl
  | cons c cs ih =>
    have hnone : matchPlaceholder (c :: cs) = none := by
      cases hm : matchPlaceholder (c :: cs) with
      | none => rfl
      | some x =>
        exfalso
        obtain ⟨w, hw⟩ := matchPlaceholder_some_tag hm
        have hpre : TAG.isPrefixOf (c :: cs) = true := (isPre_iff _ _).mpr ⟨w, hw⟩
        rw [noTag_head h] at hpre
        exact Bool.false_ne_true hpre
    rw [hasToken, hnone]
    simp only [Option.isSome_none, Bool.false_or]
    exact ih (noTag_tail h)

theorem restore_noop {s : List Char} (m : List (List Char)) (h : noTag s = true) :
    restoreMathSegments s m = s := by
  induction s with
  | nil => rfl
  | cons c cs ih =>
    have hnone : matchPlaceholder (c :: cs) = none := by
      cases hm : matchPlaceholder (c :: cs) with
      | none => rfl
      | some x =>
        exfalso
        obtain ⟨w, hw⟩ := matchPlaceholder_some_tag hm
        have hpre : TAG.isPrefixOf (c :: cs) = true := (isPre_iff _ _).mpr ⟨w, hw⟩
        rw [noTag_head h] at hpre
        exact Bool.false_ne_true hpre
    rw [restoreRun_nomatch hnone, ih (noTag_tail h)]

/-- Restoring a string made of a header-free piece, one placeholder token and a
tail substitutes the table entry for the token and leaves the rest to the scan
of the tail. -/
theorem restore_token_mid {p : List Char} (ds b : List Char) (m : List (List Char))
    (hp : noTag p = true) (h1 : ds ≠ []) (h2 : ∀ c ∈ ds, c.isDigit = true) :
    restoreMathSegments (p ++ TAG ++ ds ++ '@' :: '@' :: b) m =
      p ++ m.getD (digitsToNat ds) [] ++ restoreMathSegments b m := by
  induction p with
  | nil =>
    simp only [List.nil_append]
    have hm : matchPlaceholder (TAG ++ ds ++ '@' :: '@' :: b) = some (ds, b) :=
      matchPlaceholder_token b h1 h2
    rw [restoreRun_match hm]
  | cons c p' ih =>
    have hnone : matchPlaceholder (c :: (p' ++ TAG ++ ds ++ '@' :: '@' :: b)) = none := by
      cases hm : matchPlaceholder (c :: (p' ++ TAG ++ ds ++ '@' :: '@' :: b)) with
      | none => rfl
      | some x =>
        exfalso
        obtain ⟨w, hw⟩ := matchPlaceholder_some_tag hm
        have hw' : TAG ++ w = (c :: p') ++ (TAG ++ (ds ++ '@' :: '@' :: b)) := by
          rw [hw]
          simp
        rcases tag_resolve hw' with hx | ⟨x', hx⟩
        · simp at hx
        · have hpre : TAG.isPrefixOf (c :: p') = true := (isPre_iff _ _).mpr ⟨x', hx⟩
          rw [noTag_head hp] at hpre
          exact Bool.false_ne_true hpre
    have hshape : (c :: p') ++ TAG ++ ds ++ '@' :: '@' :: b =
        c :: (p' ++ TAG ++ ds ++ '@' :: '@' :: b) := by simp
    rw [hshape, restoreRun_nomatch hnone, ih (noTag_tail hp)]
    simp

/-! ## Inversion of the pattern matchers -/

theorem findSub2_eq (a b : Char) :
    ∀ s p r, findSub2 a b s = some (p, r) → s = p ++ a :: b :: r := by
  intro s
  induction s with
  | nil => intro p r h; simp [findSub2] at h
  | cons x xs ih =>
    cases xs with
    | nil => intro p r h; simp [findSub2] at h
    | cons y rest =>
      intro p r h
      simp only [findSub2] at h
      by_cases hxy : x = a ∧ y = b
      · rw [if_pos hxy] at h
        injection h with h
        injection h with h1 h2
        subst h1
        subst h2
        rw [List.nil_append, hxy.1, hxy.2]
      · rw [if_neg hxy] at h
        cases hf : findSub2 a b (y :: rest) with
        | none => rw [hf] at h; simp at h
        | some x' =>
          obtain ⟨p', r'⟩ := x'
          rw [hf] at h
          dsimp only at h
          injection h with h
          injection h with h1 h2
          subst h1
          subst h2
          rw [List.cons_append, ← ih p' r' hf]

theorem span3_eq : ∀ s p r, span3 s = some (p, r) → s = p ++ '$' :: r := by
  intro s
  induction s with
  | nil => intro p r h; simp [span3] at h
  | cons c cs ih =>
    intro p r h
    simp only [span3] at h
    by_cases hc : c = '$'
    · rw [if_pos hc] at h
      injection h with h
      injection h with h1 h2
      subst h1
      subst h2
      rw [List.nil_append, hc]
    · rw [if_neg hc] at h
      by_cases hn : c = '\n'
      · rw [if_pos hn] at h; simp at h
      · rw [if_neg hn] at h
        cases hf : span3 cs with
        | none => rw [hf] at h; simp at h
        | some x' =>
          obtain ⟨p', r'⟩ := x'
          rw [hf] at h
          dsimp only at h
          injection h with h
          injection h with h1 h2
          subst h1
          subst h2
          rw [List.cons_append, ← ih p' r' hf]

theorem span4_eq : ∀ s p r, span4 s = some (p, r) → s = p ++ '\\' :: ')' :: r := by
  intro s
  induction s with
  | nil => intro p r h; simp [span4] at h
  | cons c cs ih =>
    intro p r h
    simp only [span4] at h
    by_cases hc : c = '\\'
    · rw [if_pos hc] at h
      cases cs with
      | nil => simp at h
      | cons c2 r2 =>
        dsimp only at h
        by_cases hc2 : c2 = ')'
        · rw [if_pos hc2] at h
          injection h with h
          injection h with h1 h2
          subst h1
          subst h2
          rw [List.nil_append, hc, hc2]
        · rw [if_neg hc2] at h; simp at h
    · rw [if_neg hc] at h
      cases hf : span4 cs with
      | none => rw [hf] at h; simp at h
      | some x' =>
        obtain ⟨p', r'⟩ := x'
        rw [hf] at h
        dsimp only at h
        injection h with h
        injection h with h1 h2
        subst h1
        subst h2
        rw [List.cons_append, ← ih p' r' hf]

/-- Every successful anchored match consumes the matched text, which is
nonempty and ends in `$`, `]` or `)`. -/
theorem matchAt_inv {pat : Pat} {s t r : List Char} (h : matchAt pat s = some (t, r)) :
    s = t ++ r ∧ ∃ t₀ cl, t = t₀ ++ [cl] ∧ (cl = '$' ∨ cl = ']' ∨ cl = ')') := by
  cases pat with
  | dollar2 =>
    rcases s with _ | ⟨c1, _ | ⟨c2, rest⟩⟩
    · simp [matchAt] at h
    · simp [matchAt] at h
    · simp only [matchAt] at h
      by_cases h12 : c1 = '$' ∧ c2 = '$'
      · rw [if_pos h12] at h
        cases hf : findSub2 '$' '$' rest with
        | none => rw [hf] at h; simp at h
        | some x' =>
          obtain ⟨body, rr⟩ := x'
          rw [hf] at h
          dsimp only at h
          injection h with h
          injection h with h1 h2
          subst h1
          subst h2
          have hrest := findSub2_eq '$' '$' rest body rr hf
          constructor
          · rw [h12.1, h12.2, hrest]; simp
          · exact ⟨'$' :: '$' :: (body ++ ['$']), '$', by simp, Or.inl rfl⟩
      · rw [if_neg h12] at h; simp at h
  | bracket =>
    rcases s with _ | ⟨c1, _ | ⟨c2, rest⟩⟩
    · simp [matchAt] at h
    · simp [matchAt] at h
    · simp only [matchAt] at h
      by_cases h12 : c1 = '\\' ∧ c2 = '['
      · rw [if_pos h12] at h
        cases hf : findSub2 '\\' ']' rest with
        | none => rw [hf] at h; simp at h
        | some x' =>
          obtain ⟨body, rr⟩ := x'
          rw [hf] at h
          dsimp only at h
          injection h with h
          injection h with h1 h2
          subst h1
          subst h2
          have hrest := findSub2_eq '\\' ']' rest body rr hf
          constructor
          · rw [h12.1, h12.2, hrest]; simp
          · exact ⟨'\\' :: '[' :: (body ++ ['\\']), ']', by simp, Or.inr (Or.inl rfl)⟩
      · rw [if_neg h12] at h; simp at h
  | dollar1 =>
    rcases s with _ | ⟨c1, rest⟩
    · simp [matchAt] at h
    · simp only [matchAt] at h
      by_cases h1 : c1 = '$'
      · rw [if_pos h1] at h
        cases hf : span3 rest with
        | none => rw [hf] at h; simp at h
        | some x' =>
          obtain ⟨body, rr⟩ := x'
          rw [hf] at h
          dsimp only at h
          by_cases hb : body = []
          · rw [if_pos hb] at h; simp at h
          · rw [if_neg hb] at h
            injection h with h
            injection h with h1' h2
            subst h1'
            subst h2
            have hrest := span3_eq rest body rr hf
            constructor
            · rw [h1, hrest]; simp
            · exact ⟨'$' :: body, '$', by simp, Or.inl rfl⟩
      · rw [if_neg h1] at h; simp at h
  | paren =>
    rcases s with _ | ⟨c1, _ | ⟨c2, rest⟩⟩
    · simp [matchAt] at h
    · simp [matchAt] at h
    · simp only [matchAt] at h
      by_cases h12 : c1 = '\\' ∧ c2 = '('
      · rw [if_pos h12] at h
        cases hf : span4 rest with
        | none => rw [hf] at h; simp at h
        | some x' =>
          obtain ⟨body, rr⟩ := x'
          rw [hf] at h
          dsimp only at h
          injection h with h
          injection h with h1 h2
          subst h1
          subst h2
          have hrest := span4_eq rest body rr hf
          constructor
          · rw [h12.1, h12.2, hrest]; simp
          · exact ⟨'\\' :: '(' :: (body ++ ['\\']), ')', by simp, Or.inr (Or.inr rfl)⟩
      · rw [if_neg h12] at h; simp at h

theorem matchAt_consume {pat : Pat} {s t r : List Char} (h : matchAt pat s = some (t, r)) :
    s = t ++ r ∧ t ≠ [] := by
  obtain ⟨he, t₀, cl, ht, _⟩ := matchAt_inv h
  refine ⟨he, ?_⟩
  rw [ht]
  simp

theorem matchAt_none_of_head (pat : Pat) {c : Char} (cs : List Char)
    (h1 : c ≠ '$') (h2 : c ≠ '\\') : matchAt pat (c :: cs) = none := by
  cases pat <;> cases cs <;> simp [matchAt, h1, h2]

/-! ## Behaviour of one extraction pass -/

theorem passGo_nil (pat : Pat) (m : List (List Char)) :
    ∀ f, passGo pat f [] m = ([], m) := by
  intro f
  cases f <;> rfl

theorem length_of_matchAt {pat : Pat} {c : Char} {cs t r : List Char}
    (h : matchAt pat (c :: cs) = some (t, r)) : r.length ≤ cs.length := by
  obtain ⟨he, hne⟩ := matchAt_consume h
  have := congrArg List.length he
  simp at this
  have ht : 1 ≤ t.length := List.length_pos.mpr hne
  omega

theorem passGo_fuel (pat : Pat) :
    ∀ f1 f2 s m, s.length ≤ f1 → s.length ≤ f2 →
      passGo pat f1 s m = passGo pat f2 s m := by
  intro f1
  induction f1 with
  | zero =>
    intro f2 s m h1 _
    have hs : s = [] := List.eq_nil_of_length_eq_zero (Nat.le_zero.mp h1)
    subst hs
    rw [passGo_nil, passGo_nil]
  | succ f ih =>
    intro f2 s m h1 h2
    cases s with
    | nil => rw [passGo_nil, passGo_nil]
    | cons c cs =>
      cases f2 with
      | zero => simp at h2
      | succ f2' =>
        simp only [List.length_cons, Nat.succ_le_succ_iff] at h1 h2
        cases hm : matchAt pat (c :: cs) with
        | some x =>
          obtain ⟨t, r⟩ := x
          have hr : r.length ≤ cs.length := length_of_matchAt hm
          simp only [passGo, hm]
          rw [ih f2' r (m ++ [t]) (le_trans hr h1) (le_trans hr h2)]
        | none =>
          simp only [passGo, hm]
          rw [ih f2' cs m h1 h2]

theorem passRun_nil (pat : Pat) (m : List (List Char)) : passRun pat [] m = ([], m) := rfl

theorem passRun_match {pat : Pat} {c : Char} {cs t r : List Char} (m : List (List Char))
    (h : matchAt pat (c :: cs) = some (t, r)) :
    passRun pat (c :: cs) m =
      (phList m.length ++ (passRun pat r (m ++ [t])).1, (passRun pat r (m ++ [t])).2) := by
  have hr : r.length ≤ cs.length := length_of_matchAt h
  unfold passRun
  simp only [List.length_cons]
  simp only [passGo, h]
  rw [passGo_fuel pat cs.length r.length r (m ++ [t]) hr (le_refl _)]

theorem passRun_nomatch {pat : Pat} {c : Char} {cs : List Char} (m : List (List Char))
    (h : matchAt pat (c :: cs) = none) :
    passRun pat (c :: cs) m = (c :: (passRun pat cs m).1, (passRun pat cs m).2) := by
  unfold passRun
  simp only [List.length_cons]
  simp only [passGo, h]

theorem passGo_table (pat : Pat) :
    ∀ f s m, ∃ ext, (passGo pat f s m).2 = m ++ ext := by
  intro f
  induction f with
  | zero => intro s m; exact ⟨[], by simp [passGo]⟩
  | succ f ih =>
    intro s m
    cases s with
    | nil => exact ⟨[], by simp [passGo]⟩
    | cons c cs =>
      cases hm : matchAt pat (c :: cs) with
      | some x =>
        obtain ⟨t, r⟩ := x
        obtain ⟨ext, he⟩ := ih r (m ++ [t])
        refine ⟨[t] ++ ext, ?_⟩
        simp only [passGo, hm]
        rw [he]
        simp
      | none =>
        obtain ⟨ext, he⟩ := ih cs m
        refine ⟨ext, ?_⟩
        simp only [passGo, hm]
        rw [he]

theorem passRun_table (pat : Pat) (s : List Char) (m : List (List Char)) :
    ∃ ext, (passRun pat s m).2 = m ++ ext :=
  passGo_table pat s.length s m

theorem mem_passRun_table {x : List Char} (pat : Pat) (s : List Char)
    (m : List (List Char)) (h : x ∈ m) : x ∈ (passRun pat s m).2 := by
  obtain ⟨ext, he⟩ := passRun_table pat s m
  rw [he]
  exact List.mem_append_left _ h

/-! ## Decomposition lemmas -/

theorem renderD_nil : renderD [] = [] := rfl

theorem renderD_cons (i : Item) (D : List Item) :
    renderD (i :: D) = renderItem i ++ renderD D := rfl

theorem renderD_append (A B : List Item) : renderD (A ++ B) = renderD A ++ renderD B := by
  simp [renderD]

theorem restoredD_nil (m : List (List Char)) : restoredD m [] = [] := rfl

theorem restoredD_cons (m : List (List Char)) (i : Item) (D : List Item) :
    restoredD m (i :: D) = restoredItem m i ++ restoredD m D := rfl

theorem restoredD_append (m : List (List Char)) (A B : List Item) :
    restoredD m (A ++ B) = restoredD m A ++ restoredD m B := by
  simp [restoredD]

theorem altOk_tail {a : Item} {D : List Item} (h : altOk (a :: D) = true) :
    altOk D = true := by
  cases D with
  | nil => rfl
  | cons b rest =>
    rw [show altOk (a :: b :: rest) = (!(a.isLit && b.isLit) && altOk (b :: rest)) from rfl,
      Bool.and_eq_true] at h
    exact h.2

theorem altOk_cons_tok (k : Nat) (D : List Item) :
    altOk (Item.tok k :: D) = altOk D := by
  cases D with
  | nil => rfl
  | cons b rest => simp [altOk, Item.isLit]

theorem altOk_append_tokHead {A : List Item} {k : Nat} {B : List Item}
    (hA : altOk A = true) (hB : altOk (Item.tok k :: B) = true) :
    altOk (A ++ Item.tok k :: B) = true := by
  induction A with
  | nil => exact hB
  | cons a A' ih =>
    cases A' with
    | nil =>
      rw [List.cons_append, List.nil_append]
      rw [show altOk (a :: Item.tok k :: B) =
        (!(a.isLit && (Item.tok k).isLit) && altOk (Item.tok k :: B)) from rfl]
      simp [Item.isLit, hB]
    | cons b A'' =>
      rw [show altOk (a :: b :: A'') = (!(a.isLit && b.isLit) && altOk (b :: A'')) from rfl,
        Bool.and_eq_true] at hA
      rw [List.cons_append, List.cons_append]
      rw [show altOk (a :: b :: (A'' ++ Item.tok k :: B)) =
        (!(a.isLit && b.isLit) && altOk (b :: (A'' ++ Item.tok k :: B))) from rfl]
      rw [Bool.and_eq_true]
      refine ⟨hA.1, ?_⟩
      have := ih hA.2
      rw [List.cons_append] at this
      exact this

theorem litOkD_nil : litOkD [] := by
  intro p hp
  simp at hp

theorem litOkD_tail {i : Item} {D : List Item} (h : litOkD (i :: D)) : litOkD D :=
  fun p hp => h p (List.mem_cons_of_mem i hp)

theorem litOkD_append {A B : List Item} (hA : litOkD A) (hB : litOkD B) :
    litOkD (A ++ B) := by
  intro p hp
  rw [List.mem_append] at hp
  rcases hp with hp | hp
  · exact hA p hp
  · exact hB p hp

theorem tokLtD_nil (n : Nat) : tokLtD n [] := by
  intro k hk
  simp at hk

theorem tokLtD_tail {n : Nat} {i : Item} {D : List Item} (h : tokLtD n (i :: D)) :
    tokLtD n D :=
  fun k hk => h k (List.mem_cons_of_mem i hk)

theorem tokLtD_append {n : Nat} {A B : List Item} (hA : tokLtD n A) (hB : tokLtD n B) :
    tokLtD n (A ++ B) := by
  intro k hk
  rw [List.mem_append] at hk
  rcases hk with hk | hk
  · exact hA k hk
  · exact hB k hk

theorem tokLtD_mono {n n' : Nat} {D : List Item} (h : n ≤ n') (hD : tokLtD n D) :
    tokLtD n' D :=
  fun k hk => lt_of_lt_of_le (hD k hk) h

theorem restoredD_stable {m : List (List Char)} (ext : List (List Char)) :
    ∀ {D : List Item}, tokLtD m.length D →
      restoredD (m ++ ext) D = restoredD m D := by
  intro D
  induction D with
  | nil => intro _; rfl
  | cons i D' ih =>
    intro h
    rw [restoredD_cons, restoredD_cons, ih (tokLtD_tail h)]
    cases i with
    | lit p => rfl
    | tok k =>
      have hk : k < m.length := h k (List.mem_cons_self _ _)
      rw [show restoredItem (m ++ ext) (Item.tok k) = (m ++ ext).getD k [] from rfl,
        show restoredItem m (Item.tok k) = m.getD k [] from rfl,
        List.getD_append m ext [] k hk]

theorem getD_at_len (m : List (List Char)) (t : List Char) (ext : List (List Char)) :
    ((m ++ [t]) ++ ext).getD m.length [] = t := by
  rw [List.append_assoc, List.getD_append_right m ([t] ++ ext) [] m.length (le_refl _)]
  simp

theorem renderD_consChar (c : Char) (D : List Item) :
    renderD (consChar c D) = c :: renderD D := by
  cases D with
  | nil => rfl
  | cons i D' =>
    cases i with
    | lit q => simp [consChar, renderD, renderItem]
    | tok k => simp [consChar, renderD, renderItem]

theorem restoredD_consChar (m : List (List Char)) (c : Char) (D : List Item) :
    restoredD m (consChar c D) = c :: restoredD m D := by
  cases D with
  | nil => rfl
  | cons i D' =>
    cases i with
    | lit q => simp [consChar, restoredD, restoredItem]
    | tok k => simp [consChar, restoredD, restoredItem]

theorem altOk_consChar (c : Char) (D : List Item) :
    altOk (consChar c D) = altOk D := by
  cases D with
  | nil => rfl
  | cons i D' =>
    cases i with
    | lit q =>
      cases D' with
      | nil => rfl
      | cons b rest => simp [consChar, altOk, Item.isLit]
    | tok k =>
      cases D' with
      | nil => rfl
      | cons b rest => simp [consChar, altOk, Item.isLit, altOk_cons_tok]

theorem tokLtD_consChar {n : Nat} (c : Char) {D : List Item} (h : tokLtD n D) :
    tokLtD n (consChar c D) := by
  cases D with
  | nil =>
    intro k hk
    simp [consChar] at hk
  | cons i D' =>
    cases i with
    | lit q =>
      intro k hk
      simp only [consChar, List.mem_cons] at hk
      rcases hk with hk | hk
      · cases hk
      · exact h k (List.mem_cons_of_mem _ hk)
    | tok j =>
      intro k hk
      simp only [consChar, List.mem_cons] at hk
      rcases hk with hk | hk | hk
      · cases hk
      · exact h k (by rw [hk]; exact List.mem_cons_self _ _)
      · exact h k (List.mem_cons_of_mem _ hk)

/-! ## Splitting appends -/

theorem take_all_left {a : List Char} (b : List Char) {n : Nat} (h : n ≤ a.length) :
    (a ++ b).take n = a.take n := by
  rw [List.take_append_eq_append_take, Nat.sub_eq_zero_of_le h, List.take_zero,
    List.append_nil]

theorem append_eq_of_le {x y t r : List Char} (h : x ++ y = t ++ r)
    (hle : t.length ≤ x.length) : ∃ x₂, x = t ++ x₂ ∧ r = x₂ ++ y := by
  have ht : x.take t.length = t := by
    have h2 := congrArg (List.take t.length) h
    rw [take_all_left y hle, List.take_left] at h2
    exact h2
  have hx : x = t ++ x.drop t.length := by
    conv_lhs => rw [← List.take_append_drop t.length x]
    rw [ht]
  refine ⟨x.drop t.length, hx, ?_⟩
  rw [hx, List.append_assoc] at h
  exact (by simpa using h : x.drop t.length ++ y = r).symm

theorem append_eq_of_ge {x y t r : List Char} (h : x ++ y = t ++ r)
    (hge : x.length ≤ t.length) : ∃ e, t = x ++ e ∧ y = e ++ r := by
  obtain ⟨e, h1, h2⟩ := append_eq_of_le h.symm hge
  exact ⟨e, h1, h2⟩

/-! ## Scanning one literal piece -/

/-- Running one pass over a header-free piece `p` followed by token-headed (or
empty) text `s`: every match falls inside `p` (given that no recorded segment
contains the header), so the pass rewrites `p` into an alternation of pieces of
`p` and fresh tokens, then continues on `s` with the enlarged table. -/
theorem scan_lit (pat : Pat) (s : List Char)
    (hs : s = [] ∨ ∃ k s', s = phList k ++ s') :
    ∀ n p m, p.length ≤ n → noTag p = true →
      (∀ t ∈ (passRun pat (p ++ s) m).2, noTag t = true) →
      ∃ Dp m₁,
        (passRun pat (p ++ s) m).1 = renderD Dp ++ (passRun pat s m₁).1 ∧
        (passRun pat (p ++ s) m).2 = (passRun pat s m₁).2 ∧
        restoredD m₁ Dp = p ∧
        altOk Dp = true ∧ litOkD Dp ∧ tokLtD m₁.length Dp ∧
        ∃ ext, m₁ = m ++ ext := by
  intro n
  induction n with
  | zero =>
    intro p m hlen _ _
    have hp : p = [] := List.eq_nil_of_length_eq_zero (Nat.le_zero.mp hlen)
    subst hp
    exact ⟨[], m, by simp [renderD_nil], rfl, rfl, rfl, litOkD_nil, tokLtD_nil _,
      [], by simp⟩
  | succ n ih =>
    intro p m hlen hnoTag hseg
    cases p with
    | nil =>
      exact ⟨[], m, by simp [renderD_nil], rfl, rfl, rfl, litOkD_nil, tokLtD_nil _,
        [], by simp⟩
    | cons c p' =>
      have hlen' : p'.length ≤ n := by
        simp only [List.length_cons, Nat.succ_le_succ_iff] at hlen
        exact hlen
      cases hm : matchAt pat (c :: (p' ++ s)) with
      | none =>
        have hrw := passRun_nomatch m hm
        have hseg' : ∀ t ∈ (passRun pat (p' ++ s) m).2, noTag t = true := by
          intro t ht
          apply hseg t
          show t ∈ (passRun pat (c :: (p' ++ s)) m).2
          rw [hrw]
          exact ht
        obtain ⟨Dp', m₁, e1, e2, e3, e4, e5, e6, ext, e7⟩ :=
          ih p' m hlen' (noTag_tail hnoTag) hseg'
        refine ⟨consChar c Dp', m₁, ?_, ?_, ?_, ?_, ?_, tokLtD_consChar c e6, ext, e7⟩
        · show (passRun pat (c :: (p' ++ s)) m).1 = _
          rw [hrw]
          dsimp only
          rw [e1, renderD_consChar]
          simp
        · show (passRun pat (c :: (p' ++ s)) m).2 = _
          rw [hrw]
          exact e2
        · rw [restoredD_consChar, e3]
        · rw [altOk_consChar]
          exact e4
        · cases hd : Dp' with
          | nil =>
            intro q hq
            simp only [hd, consChar, List.mem_cons, List.not_mem_nil, or_false] at hq
            injection hq with hq
            rw [hq]
            exact noTag_single c
          | cons i D'' =>
            cases i with
            | lit q0 =>
              have hq0 : q0 ++ restoredD m₁ D'' = p' := by
                rw [← e3, hd, restoredD_cons]
                rfl
              intro q hq
              simp only [hd, consChar, List.mem_cons] at hq
              rcases hq with hq | hq
              · have hcq : noTag ((c :: q0) ++ restoredD m₁ D'') = true := by
                  rw [List.cons_append, hq0]
                  exact hnoTag
                injection hq with hq
                rw [hq]
                exact noTag_append_left hcq
              · exact e5 q (by rw [hd]; exact List.mem_cons_of_mem _ hq)
            | tok j =>
              intro q hq
              simp only [hd, consChar, List.mem_cons] at hq
              rcases hq with hq | hq | hq
              · injection hq with hq
                rw [hq]
                exact noTag_single c
              · cases hq
              · exact e5 q (by rw [hd]; exact List.mem_cons_of_mem _ hq)
      | some x =>
        obtain ⟨t, r⟩ := x
        obtain ⟨he, t₀, cl, htl, hcl⟩ := matchAt_inv hm
        have hrw := passRun_match m hm
        have hmem : t ∈ (passRun pat (c :: (p' ++ s)) m).2 := by
          rw [hrw]
          exact mem_passRun_table pat r (m ++ [t])
            (List.mem_append_right m (by simp))
        have hTt : noTag t = true := hseg t hmem
        have htne : t ≠ [] := by
          rw [htl]
          simp
        have he' : (c :: p') ++ s = t ++ r := he
        have hple : t.length ≤ (c :: p').length := by
          by_contra hgt
          push_neg at hgt
          obtain ⟨e, hte, hse⟩ := append_eq_of_ge he' (le_of_lt hgt)
          have hene : 1 ≤ e.length := by
            rcases e with _ | ⟨x, e'⟩
            · rw [List.append_nil] at hte
              have hcontra := congrArg List.length hte
              omega
            · simp
          rcases hs with rfl | ⟨k, s', rfl⟩
          · have h0 := congrArg List.length hse
            simp only [List.length_nil, List.length_append] at h0
            omega
          · rcases Nat.lt_or_ge e.length 6 with hd6 | hd6
            · -- short spill into the token: the last char of the match is
              -- among the first five characters of the token, impossible
              rcases List.eq_nil_or_concat e with rfl | ⟨e₀, ce, hee⟩
              · simp at hene
              · rw [List.concat_eq_append] at hee
                have hce : ce = cl := by
                  have g1 : t.getLast? = some ce := by
                    rw [hte, hee]
                    have hx := @List.getLast?_append_of_ne_nil _ (c :: p') (e₀ ++ [ce]) (by simp)
                    rw [hx]
                    simp
                  have g2 : t.getLast? = some cl := by
                    rw [htl]
                    simp
                  have := g1.symm.trans g2
                  injection this
                have hetake : e = (phList k ++ s').take e.length := by
                  have h2 := congrArg (List.take e.length) hse
                  rw [take_all_left r (le_refl _), List.take_length] at h2
                  exact h2.symm
                have hclmem : cl ∈ (phList k).take 5 := by
                  have hmem1 : cl ∈ e := by
                    rw [hee, hce]
                    exact List.mem_append_right _ (by simp)
                  rw [hetake] at hmem1
                  have h55 : (phList k ++ s').take e.length =
                      ((phList k ++ s').take 5).take e.length := by
                    rw [List.take_take, Nat.min_eq_left (by omega)]
                  rw [h55] at hmem1
                  have := List.mem_of_mem_take hmem1
                  rw [take_all_left s' (by have := phList_length k; omega)] at this
                  exact this
                have hfive : (phList k).take 5 = ['@', '@', 'M', 'A', 'T'] := rfl
                rw [hfive] at hclmem
                rcases hcl with rfl | rfl | rfl <;> exact absurd hclmem (by decide)
            · -- long spill: the match would contain the whole header
              have h2 := congrArg (List.take 6) hse
              rw [take_all_left r hd6, take_all_left s' (by have := phList_length k; omega)] at h2
              have h6 : e.take 6 = TAG := by
                rw [← h2]
                exact phList_take6 k
              have hesplit : e = TAG ++ e.drop 6 := by
                conv_lhs => rw [← List.take_append_drop 6 e]
                rw [h6]
              have : t = (c :: p') ++ TAG ++ e.drop 6 := by
                rw [hte]
                conv_lhs => rw [hesplit]
                rw [List.append_assoc]
              exact noTag_no_occurrence hTt (c :: p') (e.drop 6) this
        obtain ⟨p₂, hp2a, hp2b⟩ := append_eq_of_le he' hple
        have hp2len : p₂.length ≤ n := by
          have h1 := congrArg List.length hp2a
          have h2 : 1 ≤ t.length := List.length_pos.mpr htne
          simp only [List.length_cons, List.length_append] at h1
          simp only [List.length_cons] at hlen
          omega
        have hseg₂ : ∀ t' ∈ (passRun pat (p₂ ++ s) (m ++ [t])).2, noTag t' = true := by
          intro t' ht'
          apply hseg t'
          show t' ∈ (passRun pat (c :: (p' ++ s)) m).2
          rw [hrw, hp2b]
          exact ht'
        obtain ⟨Dp₂, m₁, f1, f2, f3, f4, f5, f6, ext2, f7⟩ :=
          ih p₂ (m ++ [t]) hp2len (noTag_append_right (hp2a ▸ hnoTag)) hseg₂
        refine ⟨Item.tok m.length :: Dp₂, m₁, ?_, ?_, ?_, ?_, ?_, ?_,
          [t] ++ ext2, by rw [f7]; simp⟩
        · show (passRun pat (c :: (p' ++ s)) m).1 = _
          rw [hrw]
          dsimp only
          rw [hp2b, f1, renderD_cons]
          show phList m.length ++ (renderD Dp₂ ++ _) = (phList m.length ++ renderD Dp₂) ++ _
          rw [List.append_assoc]
        · show (passRun pat (c :: (p' ++ s)) m).2 = _
          rw [hrw]
          dsimp only
          rw [hp2b, f2]
        · rw [restoredD_cons]
          show m₁.getD m.length [] ++ restoredD m₁ Dp₂ = c :: p'
          rw [f3, f7, getD_at_len, ← hp2a]
        · rw [altOk_cons_tok]
          exact f4
        · intro q hq
          rcases List.mem_cons.mp hq with hq | hq
          · cases hq
          · exact f5 q hq
        · intro k hk
          rcases List.mem_cons.mp hk with hk | hk
          · injection hk with hk
            rw [hk, f7]
            simp
          · exact f6 k hk

/-! ## One whole pass preserves the decomposition -/

theorem pass_through_token (pat : Pat) (u s : List Char) (m : List (List Char))
    (hu : ∀ c ∈ u, c ≠ '$' ∧ c ≠ '\\') :
    passRun pat (u ++ s) m = (u ++ (passRun pat s m).1, (passRun pat s m).2) := by
  induction u with
  | nil => simp
  | cons c u' ih =>
    have hc := hu c (List.mem_cons_self c u')
    have hnone : matchAt pat (c :: (u' ++ s)) = none :=
      matchAt_none_of_head pat (u' ++ s) hc.1 hc.2
    rw [List.cons_append, passRun_nomatch m hnone,
      ih (fun c' hc' => hu c' (List.mem_cons_of_mem c hc'))]
    simp

theorem pass_decomp (pat : Pat) :
    ∀ (D : List Item) (m : List (List Char)),
      altOk D = true → litOkD D → tokLtD m.length D →
      (∀ t ∈ (passRun pat (renderD D) m).2, noTag t = true) →
      ∃ D' m',
        (passRun pat (renderD D) m).1 = renderD D' ∧
        (passRun pat (renderD D) m).2 = m' ∧
        restoredD m' D' = restoredD m D ∧
        altOk D' = true ∧ litOkD D' ∧ tokLtD m'.length D' ∧
        (∃ ext, m' = m ++ ext) ∧
        (∀ k D₀, D = Item.tok k :: D₀ → ∃ D₁, D' = Item.tok k :: D₁) := by
  intro D
  induction D with
  | nil =>
    intro m _ _ _ _
    refine ⟨[], m, ?_, ?_, rfl, rfl, litOkD_nil, tokLtD_nil _, ⟨[], by simp⟩, ?_⟩
    · rw [renderD_nil, passRun_nil]
    · rw [renderD_nil, passRun_nil]
    · intro k D₀ h
      simp at h
  | cons i D ih =>
    intro m hAlt hLit hTok hseg
    cases i with
    | tok k =>
      have hren : renderD (Item.tok k :: D) = phList k ++ renderD D := rfl
      have hthru := pass_through_token pat (phList k) (renderD D) m
        (fun c hc => phList_chars hc)
      have hAlt' : altOk D = true := by
        rw [altOk_cons_tok] at hAlt
        exact hAlt
      have hseg' : ∀ t ∈ (passRun pat (renderD D) m).2, noTag t = true := by
        intro t ht
        apply hseg t
        rw [hren, hthru]
        exact ht
      obtain ⟨D', m', g1, g2, g3, g4, g5, g6, ⟨ext, g7⟩, _⟩ :=
        ih m hAlt' (litOkD_tail hLit) (tokLtD_tail hTok) hseg'
      have hk : k < m.length := hTok k (List.mem_cons_self _ _)
      refine ⟨Item.tok k :: D', m', ?_, ?_, ?_, ?_, ?_, ?_, ⟨ext, g7⟩, ?_⟩
      · rw [hren, hthru]
        dsimp only
        rw [g1, renderD_cons]
        rfl
      · rw [hren, hthru]
        exact g2
      · rw [restoredD_cons, restoredD_cons, g3]
        have hgd : m'.getD k [] = m.getD k [] := by
          rw [g7, List.getD_append m ext [] k hk]
        rw [show restoredItem m' (Item.tok k) = m'.getD k [] from rfl,
          show restoredItem m (Item.tok k) = m.getD k [] from rfl, hgd]
      · rw [altOk_cons_tok]
        exact g4
      · intro q hq
        rcases List.mem_cons.mp hq with hq | hq
        · cases hq
        · exact g5 q hq
      · intro j hj
        rcases List.mem_cons.mp hj with hj | hj
        · injection hj with hj
          rw [hj, g7]
          simp only [List.length_append]
          omega
        · exact g6 j hj
      · intro j D₀ h
        injection h with h1 _
        injection h1 with h1
        exact ⟨D', by rw [h1]⟩
    | lit p =>
      have hren : renderD (Item.lit p :: D) = p ++ renderD D := rfl
      have hp : noTag p = true := hLit p (List.mem_cons_self _ _)
      cases D with
      | nil =>
        have hseg' : ∀ t ∈ (passRun pat (p ++ []) m).2, noTag t = true := hseg
        obtain ⟨Dp, m₁, e1, e2, e3, e4, e5, e6, ext, e7⟩ :=
          scan_lit pat [] (Or.inl rfl) p.length p m (le_refl _) hp hseg'
        refine ⟨Dp, m₁, ?_, ?_, ?_, e4, e5, e6, ⟨ext, e7⟩, ?_⟩
        · show (passRun pat (p ++ []) m).1 = _
          rw [e1, passRun_nil]
          simp
        · show (passRun pat (p ++ []) m).2 = _
          rw [e2, passRun_nil]
        · rw [e3, restoredD_cons, restoredD_nil]
          rw [show restoredItem m (Item.lit p) = p from rfl]
          simp
        · intro k D₀ h
          simp at h
      | cons j D' =>
        cases j with
        | lit q =>
          exfalso
          simp [altOk, Item.isLit] at hAlt
        | tok k =>
          have hs : renderD (Item.tok k :: D') = phList k ++ renderD D' := rfl
          obtain ⟨Dp, m₁, e1, e2, e3, e4, e5, e6, ext, e7⟩ :=
            scan_lit pat (renderD (Item.tok k :: D'))
              (Or.inr ⟨k, renderD D', hs⟩) p.length p m (le_refl _) hp hseg
          have hAlt' : altOk (Item.tok k :: D') = true := altOk_tail hAlt
          have hTok' : tokLtD m₁.length (Item.tok k :: D') := by
            apply tokLtD_mono _ (tokLtD_tail hTok)
            rw [e7]
            simp
          have hseg' : ∀ t ∈ (passRun pat (renderD (Item.tok k :: D')) m₁).2,
              noTag t = true := by
            intro t ht
            apply hseg t
            show t ∈ (passRun pat (p ++ renderD (Item.tok k :: D')) m).2
            rw [e2]
            exact ht
          obtain ⟨D'', m', g1, g2, g3, g4, g5, g6, ⟨ext2, g7⟩, g8⟩ :=
            ih m₁ hAlt' (litOkD_tail hLit) hTok' hseg'
          obtain ⟨D₁, hD₁⟩ := g8 k D' rfl
          refine ⟨Dp ++ D'', m', ?_, ?_, ?_, ?_, litOkD_append e5 g5, ?_, ?_, ?_⟩
          · show (passRun pat (p ++ renderD (Item.tok k :: D')) m).1 = _
            rw [e1, g1, renderD_append]
          · show (passRun pat (p ++ renderD (Item.tok k :: D')) m).2 = _
            rw [e2, g2]
          · rw [restoredD_append]
            have hDp : restoredD m' Dp = p := by
              rw [g7, restoredD_stable ext2 e6, e3]
            have hD'' : restoredD m' D'' = restoredD m (Item.tok k :: D') := by
              rw [g3, e7, restoredD_stable ext (tokLtD_tail hTok)]
            rw [hDp, hD'', restoredD_cons]
            rfl
          · rw [hD₁]
            apply altOk_append_tokHead e4
            rw [← hD₁]
            exact g4
          · apply tokLtD_append _ g6
            apply tokLtD_mono _ e6
            rw [g7]
            simp
          · refine ⟨ext ++ [] ++ ext2, ?_⟩
            rw [g7, e7]
            simp
          · intro j D₀ h
            simp at h
/-! ## Restoring a rendered decomposition -/

theorem restore_skip_token {p : List Char} (k : Nat) (z : List Char)
    (m : List (List Char)) (hp : noTag p = true) :
    restoreMathSegments (p ++ (phList k ++ z)) m =
      p ++ restoreMathSegments (phList k ++ z) m := by
  have h1 := restore_token_mid (natDigits k) z m hp (natDigits_ne_nil k) (natDigits_digits k)
  have h2 := @restore_token_mid [] (natDigits k) z m rfl (natDigits_ne_nil k)
    (natDigits_digits k)
  simp only [List.nil_append] at h2
  have hidx : p ++ (phList k ++ z) = p ++ TAG ++ natDigits k ++ '@' :: '@' :: z := by
    rw [phList_append]
    simp [List.append_assoc]
  have hidx2 : phList k ++ z = TAG ++ natDigits k ++ '@' :: '@' :: z := by
    rw [phList_append]
    simp [List.append_assoc]
  rw [hidx, hidx2, h1, h2]
  simp

theorem restore_renderD (m : List (List Char)) :
    ∀ D : List Item, altOk D = true → litOkD D →
      restoreMathSegments (renderD D) m = restoredD m D := by
  intro D
  induction D with
  | nil => intro _ _; rfl
  | cons i D' ih =>
    intro hAlt hLit
    cases i with
    | tok k =>
      have key := @restore_token_mid [] (natDigits k) (renderD D') m rfl
        (natDigits_ne_nil k) (natDigits_digits k)
      simp only [List.nil_append] at key
      rw [digitsToNat_natDigits] at key
      have hidx : renderD (Item.tok k :: D') =
          TAG ++ natDigits k ++ '@' :: '@' :: renderD D' := by
        rw [show renderD (Item.tok k :: D') = phList k ++ renderD D' from rfl, phList_append]
        simp [List.append_assoc]
      rw [hidx, key, ih (by rw [← altOk_cons_tok k D']; exact hAlt) (litOkD_tail hLit)]
      rfl
    | lit p =>
      have hp : noTag p = true := hLit p (List.mem_cons_self _ _)
      cases D' with
      | nil =>
        have hr : renderD [Item.lit p] = p := by simp [renderD, renderItem]
        rw [hr, restore_noop m hp]
        simp [restoredD, restoredItem]
      | cons j D'' =>
        cases j with
        | lit q =>
          exfalso
          simp [altOk, Item.isLit] at hAlt
        | tok k =>
          have hsh : renderD (Item.lit p :: Item.tok k :: D'') =
              p ++ (phList k ++ renderD D'') := rfl
          rw [hsh, restore_skip_token k (renderD D'') m hp]
          have := ih (altOk_tail hAlt) (litOkD_tail hLit)
          rw [show renderD (Item.tok k :: D'') = phList k ++ renderD D'' from rfl] at this
          rw [this]
          rfl

/-! ## The round-trip of `extractMathSegments` and `restoreMathSegments` -/

/-- The central round-trip theorem: if the input contains no `@@MATH` header and
no extracted segment contains one (no pattern match ever swallowed an earlier
placeholder), then restoring the rewritten text with the extracted table gives
back the input exactly. -/
theorem extract_restore_strong (T : List Char)
    (hT : noTag T = true)
    (hSeg : ∀ t ∈ (extractMathSegments T).2, noTag t = true) :
    restoreMathSegments (extractMathSegments T).1 (extractMathSegments T).2 = T := by
  simp only [extractMathSegments] at hSeg ⊢
  have hren : renderD [Item.lit T] = T := by simp [renderD, renderItem]
  have hLit0 : litOkD [Item.lit T] := by
    intro p hp
    simp at hp
    rw [hp]
    exact hT
  have hTok0 : tokLtD ([] : List (List Char)).length [Item.lit T] := by
    intro k hk
    simp at hk
  have hseg1 : ∀ t ∈ (passRun Pat.dollar2 (renderD [Item.lit T]) []).2, noTag t = true := by
    rw [hren]
    intro t ht
    exact hSeg t (mem_passRun_table _ _ _ (mem_passRun_table _ _ _
      (mem_passRun_table _ _ _ ht)))
  obtain ⟨D1, m1, a1, a2, a3, a4, a5, a6, _, _⟩ :=
    pass_decomp Pat.dollar2 [Item.lit T] [] (by rfl) hLit0 hTok0 hseg1
  rw [hren] at a1 a2
  rw [a1, a2] at hSeg ⊢
  have hseg2 : ∀ t ∈ (passRun Pat.bracket (renderD D1) m1).2, noTag t = true := by
    intro t ht
    exact hSeg t (mem_passRun_table _ _ _ (mem_passRun_table _ _ _ ht))
  obtain ⟨D2, m2, b1, b2, b3, b4, b5, b6, _, _⟩ :=
    pass_decomp Pat.bracket D1 m1 a4 a5 a6 hseg2
  rw [b1, b2] at hSeg ⊢
  have hseg3 : ∀ t ∈ (passRun Pat.dollar1 (renderD D2) m2).2, noTag t = true := by
    intro t ht
    exact hSeg t (mem_passRun_table _ _ _ ht)
  obtain ⟨D3, m3, c1, c2, c3, c4, c5, c6, _, _⟩ :=
    pass_decomp Pat.dollar1 D2 m2 b4 b5 b6 hseg3
  rw [c1, c2] at hSeg ⊢
  obtain ⟨D4, m4, d1, d2, d3, d4, d5, d6, _, _⟩ :=
    pass_decomp Pat.paren D3 m3 c4 c5 c6 hSeg
  rw [d1, d2, restore_renderD m4 D4 d4 d5, d3, c3, b3, a3]
  simp [restoredD, restoredItem]
/-! # Claim theorems -/

/-- Claim C1, counterexample.  The round-trip law fails as stated: the inputs
`\[$$x$$\]` and `@@MATH4$x$` contain no substring of the form
`@@MATH<digits>@@`, yet restoring the extractor's output does not return the
input.  In the first, the `\[...\]` pattern swallows the placeholder inserted
by the `$$...$$` pass and the restorer does not rescan replacement text; in
the second, the text's own `@@MATH4` fragment captures the closing `@@` of an
inserted placeholder. -/
theorem roundtrip_claim_counterexample :
    (hasToken "\\[$$x$$\\]".data = false ∧
      restoreMathSegments (extractMathSegments "\\[$$x$$\\]".data).1
        (extractMathSegments "\\[$$x$$\\]".data).2 ≠ "\\[$$x$$\\]".data) ∧
    (hasToken "@@MATH4$x$".data = false ∧
      restoreMathSegments (extractMathSegments "@@MATH4$x$".data).1
        (extractMathSegments "@@MATH4$x$".data).2 ≠ "@@MATH4$x$".data) :=
  ⟨⟨by decide, by decide⟩, ⟨by decide, by decide⟩⟩

/-- Claim C1, amended.  For every text `T` in which the six-character header
`@@MATH` occurs nowhere, and whose extraction stores no segment containing
that header (no later pattern's match swallows an earlier placeholder),
`restoreMathSegments` applied to the rewritten text and segment table of
`extractMathSegments T` returns exactly `T`. -/
theorem roundtrip_of_headerFree (T : List Char)
    (hT : noTag T = true)
    (hSeg : ∀ t ∈ (extractMathSegments T).2, noTag t = true) :
    restoreMathSegments (extractMathSegments T).1 (extractMathSegments T).2 = T :=
  extract_restore_strong T hT hSeg

/-- Witness for the amended C1 at the spec's own example input. -/
theorem roundtrip_of_headerFree_witness :
    noTag "Cost: $$x^2$$ and inline $y$".data = true ∧
    (∀ t ∈ (extractMathSegments "Cost: $$x^2$$ and inline $y$".data).2, noTag t = true) ∧
    restoreMathSegments (extractMathSegments "Cost: $$x^2$$ and inline $y$".data).1
      (extractMathSegments "Cost: $$x^2$$ and inline $y$".data).2
      = "Cost: $$x^2$$ and inline $y$".data :=
  ⟨by decide, by decide, roundtrip_of_headerFree _ (by decide) (by decide)⟩

/-- Claim C3, counterexample.  For the input `\($$y$$\)`, which contains no
substring of the form `@@MATH<digits>@@`, the restored output still contains a
full placeholder token: the token inserted by the `$$...$$` pass is stored
inside the segment recorded by the `\(...\)` pass and comes back unconsumed. -/
theorem token_residual_counterexample :
    hasToken "\\($$y$$\\)".data = false ∧
    hasToken (restoreMathSegments (extractMathSegments "\\($$y$$\\)".data).1
      (extractMathSegments "\\($$y$$\\)".data).2) = true :=
  ⟨by decide, by decide⟩

/-- Claim C3, amended.  If the input contains no `@@MATH` header at all and no
extracted segment contains one, then the output of `restoreMathSegments` on
the extractor's rewritten text and table contains no residual placeholder
token `@@MATH<digits>@@`: every inserted token is consumed. -/
theorem token_consumption_of_headerFree (T : List Char)
    (hT : noTag T = true)
    (hSeg : ∀ t ∈ (extractMathSegments T).2, noTag t = true) :
    hasToken (restoreMathSegments (extractMathSegments T).1
      (extractMathSegments T).2) = false := by
  rw [extract_restore_strong T hT hSeg]
  exact noTag_hasToken hT

/-- Witness for the amended C3 at the spec's own example input. -/
theorem token_consumption_of_headerFree_witness :
    hasToken (restoreMathSegments (extractMathSegments "Cost: $$x^2$$ and inline $y$".data).1
      (extractMathSegments "Cost: $$x^2$$ and inline $y$".data).2) = false :=
  token_consumption_of_headerFree _ (by decide) (by decide)

/-- Claim C8.  On the spec's example input the extractor returns exactly the
stated segment table and rewritten text, and in general each pass only ever
appends to the segment table it is handed (indices are assigned
sequentially). -/
theorem extract_example_spec :
    extractMathSegments "Cost: $$x^2$$ and inline $y$".data
      = ("Cost: @@MATH0@@ and inline @@MATH1@@".data,
         ["$$x^2$$".data, "$y$".data]) ∧
    ∀ (pat : Pat) (s : List Char) (m : List (List Char)),
      ∃ l, (passRun pat s m).2 = m ++ l :=
  ⟨by decide, fun pat s m => passRun_table pat s m⟩

/-- Claim C9.  For any header-free prefix, `restoreMathSegments` replaces a
placeholder token `@@MATH<digits>@@` by the table entry at its numeric index
and continues scanning after it; when the index is at or beyond the table
length, the empty string is substituted instead of failing. -/
theorem restore_token_spec (p ds b : List Char) (m : List (List Char))
    (hp : noTag p = true) (h1 : ds ≠ []) (h2 : ∀ c ∈ ds, c.isDigit = true) :
    restoreMathSegments (p ++ TAG ++ ds ++ '@' :: '@' :: b) m
      = p ++ m.getD (digitsToNat ds) [] ++ restoreMathSegments b m ∧
    (m.length ≤ digitsToNat ds →
      restoreMathSegments (p ++ TAG ++ ds ++ '@' :: '@' :: b) m
        = p ++ restoreMathSegments b m) := by
  refine ⟨restore_token_mid ds b m hp h1 h2, fun hout => ?_⟩
  rw [restore_token_mid ds b m hp h1 h2, List.getD_eq_default m [] hout]
  simp

/-- Witness for C9: restoring `x@@MATH5@@y` against the empty table drops the
out-of-range token. -/
theorem restore_token_spec_witness :
    restoreMathSegments ("x".data ++ TAG ++ ['5'] ++ '@' :: '@' :: "y".data) []
      = "x".data ++ ([] : List (List Char)).getD 5 [] ++ restoreMathSegments "y".data [] :=
  (restore_token_spec "x".data ['5'] "y".data [] (by decide) (by decide) (by decide)).1

/-- Replacement text for each escaped character stays free of markup characters. -/
theorem escapeChar_safe (c : Char) :
    ∀ x ∈ escapeChar c, x ≠ '<' ∧ x ≠ '>' ∧ x ≠ '"' ∧ x ≠ '\'' := by
  intro x hx
  unfold escapeChar at hx
  split_ifs at hx with h1 h2 h3 h4 h5
  · simp at hx
    rcases hx with rfl | rfl | rfl | rfl | rfl <;>
      exact ⟨by decide, by decide, by decide, by decide⟩
  · simp at hx
    rcases hx with rfl | rfl | rfl | rfl <;>
      exact ⟨by decide, by decide, by decide, by decide⟩
  · simp at hx
    rcases hx with rfl | rfl | rfl | rfl <;>
      exact ⟨by decide, by decide, by decide, by decide⟩
  · simp at hx
    rcases hx with rfl | rfl | rfl | rfl | rfl | rfl <;>
      exact ⟨by decide, by decide, by decide, by decide⟩
  · simp at hx
    rcases hx with rfl | rfl | rfl | rfl | rfl | rfl <;>
      exact ⟨by decide, by decide, by decide, by decide⟩
  · simp at hx
    subst hx
    exact ⟨h2, h3, h4, h5⟩

/-- Claim C10.  `escapeHtml` maps each of the five special characters to its
entity, leaves every other character (backslash included) unchanged, is the
per-character expansion of its input, and its output never contains a literal
`<`, `>`, `"` or `'`, so user text cannot inject markup. -/
theorem escapeHtml_spec (s : List Char) :
    (∀ c ∈ escapeHtml s, c ≠ '<' ∧ c ≠ '>' ∧ c ≠ '"' ∧ c ≠ '\'') ∧
    (escapeChar '&' = "&amp;".data ∧ escapeChar '<' = "&lt;".data ∧
      escapeChar '>' = "&gt;".data ∧ escapeChar '"' = "&quot;".data ∧
      escapeChar '\'' = "&#039;".data) ∧
    (∀ c : Char, c ≠ '&' → c ≠ '<' → c ≠ '>' → c ≠ '"' → c ≠ '\'' →
      escapeChar c = [c]) ∧
    escapeHtml s = (s.map escapeChar).flatten := by
  refine ⟨?_, ⟨by decide, by decide, by decide, by decide, by decide⟩, ?_, ?_⟩
  · induction s with
    | nil => intro c hc; simp [escapeHtml] at hc
    | cons a s' ih =>
      intro c hc
      rw [show escapeHtml (a :: s') = escapeChar a ++ escapeHtml s' from rfl,
        List.mem_append] at hc
      rcases hc with hc | hc
      · exact escapeChar_safe a c hc
      · exact ih c hc
  · intro c h1 h2 h3 h4 h5
    simp [escapeChar, h1, h2, h3, h4, h5]
  · induction s with
    | nil => rfl
    | cons a s' ih =>
      rw [show escapeHtml (a :: s') = escapeChar a ++ escapeHtml s' from rfl, ih]
      simp

/-- Witness for C10: a backslash passes through `escapeHtml` unchanged. -/
theorem escapeHtml_spec_witness : escapeChar '\\' = ['\\'] :=
  (escapeHtml_spec []).2.2.1 '\\' (by decide) (by decide) (by decide) (by decide) (by decide)
/-! ## Handler claims -/

theorem removeFirstTyping_append (base : List Bubble) (u : List Char)
    (hbase : Bubble.typing ∉ base) :
    removeFirstTyping (base ++ [Bubble.user u, Bubble.typing])
      = base ++ [Bubble.user u] := by
  induction base with
  | nil => simp [removeFirstTyping]
  | cons b bs ih =>
    have hb : ¬(b = Bubble.typing) := fun h => hbase (by rw [← h]; exact List.mem_cons_self b bs)
    have hbs : Bubble.typing ∉ bs := fun h => hbase (List.mem_cons_of_mem b h)
    rw [List.cons_append]
    rw [show removeFirstTyping (b :: (bs ++ [Bubble.user u, Bubble.typing]))
      = if b = Bubble.typing then bs ++ [Bubble.user u, Bubble.typing]
        else b :: removeFirstTyping (bs ++ [Bubble.user u, Bubble.typing]) from rfl]
    rw [if_neg hb, ih hbs, List.cons_append]

/-- Claim C2, counterexample.  For the response body
`{"output": "", "reply": "hi"}` the claim predicts the displayed reply "hi"
(first non-empty of the two keys), but the handler selects `output` because it
is a string, trims it to empty, removes the typing bubble and appends nothing:
no assistant bubble appears at all. -/
theorem reply_selection_counterexample :
    resolveChat (fun s => s) [Bubble.typing]
      (FetchResult.ok (some []) (some "hi".data) "st".data) = [] := by
  decide

/-- Claim C2, amended.  The reply is taken from the first of the keys
`output`, `reply` whose value is a string, regardless of emptiness; only when
neither is a string is the whole body's serialization used.  The selected
string is trimmed; if the trimmed string is empty, the typing bubble is
removed and no assistant bubble is appended, otherwise exactly one assistant
bubble with the rendered reply is appended.  In particular `{"output":
"hello"}` yields the bubble for "hello", `{"reply": "hi"}` yields "hi", and
`{}` yields the bubble for the serialized body `{}`. -/
theorem reply_selection_amended (render : List Char → List Char) (msgs : List Bubble)
    (o rp : Option (List Char)) (st s : List Char) :
    replyRaw (some s) rp st = s ∧
    replyRaw none (some s) st = s ∧
    replyRaw none none st = st ∧
    resolveChat render msgs (FetchResult.ok o rp st)
      = (if jsTrim (replyRaw o rp st) = [] then removeFirstTyping msgs
         else removeFirstTyping msgs ++
           [Bubble.assistant (renderReply render (jsTrim (replyRaw o rp st)))]) ∧
    resolveChat render msgs (FetchResult.ok (some "hello".data) rp st)
      = removeFirstTyping msgs ++ [Bubble.assistant (renderReply render "hello".data)] ∧
    resolveChat render msgs (FetchResult.ok none (some "hi".data) st)
      = removeFirstTyping msgs ++ [Bubble.assistant (renderReply render "hi".data)] ∧
    resolveChat render msgs (FetchResult.ok none none "\x7b\x7d".data)
      = removeFirstTyping msgs ++
        [Bubble.assistant (renderReply render "\x7b\x7d".data)] := by
  have hgen : ∀ (o' rp' : Option (List Char)) (st' : List Char),
      resolveChat render msgs (FetchResult.ok o' rp' st')
        = (if jsTrim (replyRaw o' rp' st') = [] then removeFirstTyping msgs
           else removeFirstTyping msgs ++
             [Bubble.assistant (renderReply render (jsTrim (replyRaw o' rp' st')))]) :=
    fun _ _ _ => rfl
  refine ⟨rfl, rfl, rfl, hgen o rp st, ?_, ?_, ?_⟩
  · rw [hgen]
    rw [show replyRaw (some "hello".data) rp st = "hello".data from rfl]
    rw [show jsTrim "hello".data = "hello".data from by decide]
    rw [if_neg (by decide)]
  · rw [hgen]
    rw [show replyRaw none (some "hi".data) st = "hi".data from rfl]
    rw [show jsTrim "hi".data = "hi".data from by decide]
    rw [if_neg (by decide)]
  · rw [hgen]
    rw [show replyRaw none none "\x7b\x7d".data = "\x7b\x7d".data from rfl]
    rw [show jsTrim "\x7b\x7d".data = "\x7b\x7d".data from by decide]
    rw [if_neg (by decide)]

/-- Claim C4.  History replay: a failed request or an empty history leaves the
initial bubbles untouched; a nonempty history replaces them entirely with the
turns rendered in order (human turns as escaped text bubbles, assistant turns
through the extract/render/restore pipeline); an assistant turn whose rendered
result is empty is skipped, so one human turn plus one such assistant turn
yields exactly the one human bubble. -/
theorem history_replay_spec (render : List Char → List Char) (initial : List Bubble) :
    historyLoad render initial HistResult.fail = initial ∧
    historyLoad render initial (HistResult.ok []) = initial ∧
    (∀ a b : List Turn,
      renderTurns render (a ++ b) = renderTurns render a ++ renderTurns render b) ∧
    (∀ t ts, historyLoad render initial (HistResult.ok (t :: ts))
      = renderTurns render (t :: ts)) ∧
    (∀ hc c : List Char, renderReply render (jsTrim c) = [] →
      historyLoad render initial (HistResult.ok [⟨"human".data, hc⟩, ⟨"ai".data, c⟩])
        = [Bubble.user (escapeHtml hc)]) := by
  have hhum : ∀ hc : List Char, renderTurn render ⟨"human".data, hc⟩
      = [Bubble.user (escapeHtml hc)] := by
    intro hc
    unfold renderTurn
    rw [if_pos rfl]
  refine ⟨rfl, rfl, ?_, ?_, ?_⟩
  · intro a b
    simp [renderTurns]
  · intro t ts
    rfl
  · intro hc c hcr
    have hai : renderTurn render ⟨"ai".data, c⟩ = [] := by
      unfold renderTurn
      have hne : ¬((⟨"ai".data, c⟩ : Turn).role = "human".data) := by
        show ¬("ai".data = "human".data)
        decide
      rw [if_neg hne, if_pos rfl]
      dsimp only
      rw [if_pos hcr]
    show renderTurns render [⟨"human".data, hc⟩, ⟨"ai".data, c⟩] = _
    unfold renderTurns
    rw [List.map_cons, List.map_cons, List.map_nil, hhum, hai]
    rfl

/-- Witness for C4: one human turn plus one assistant turn whose rendered
result is empty produces exactly the human bubble. -/
theorem history_replay_spec_witness :
    historyLoad (fun _ => []) []
      (HistResult.ok [⟨"human".data, "q".data⟩, ⟨"ai".data, []⟩])
      = [Bubble.user (escapeHtml "q".data)] :=
  (history_replay_spec (fun _ => []) []).2.2.2.2 "q".data [] (by decide)

/-- Claim C5.  Clearing is atomic for the panel: only a successful backend
response resets the bubbles to the single default post-clear assistant
message; on failure the bubbles are returned unchanged. -/
theorem clear_history_spec (msgs : List Bubble) :
    clearHistory msgs ClearResult.fail = msgs ∧
    clearHistory msgs ClearResult.ok = [Bubble.assistant clearedMessage] ∧
    ∀ r, clearHistory msgs r = msgs ∨
      clearHistory msgs r = [Bubble.assistant clearedMessage] := by
  refine ⟨rfl, rfl, ?_⟩
  intro r
  cases r
  · exact Or.inl rfl
  · exact Or.inr rfl

/-- Claim C6.  When the `/chat` request fails (network rejection or non-2xx
status), the typing placeholder is removed and exactly one fixed
connection-error bubble is appended; no assistant bubble is added. -/
theorem chat_failure_spec (render : List Char → List Char) (base : List Bubble)
    (u : List Char) (r : FetchResult)
    (hbase : Bubble.typing ∉ base)
    (hr : r = FetchResult.netError ∨ r = FetchResult.httpError) :
    resolveChat render (base ++ [Bubble.user u, Bubble.typing]) r
      = base ++ [Bubble.user u, Bubble.connError] := by
  have hrem := removeFirstTyping_append base u hbase
  rcases hr with rfl | rfl
  · show removeFirstTyping (base ++ [Bubble.user u, Bubble.typing]) ++ [Bubble.connError] = _
    rw [hrem, List.append_assoc]
    rfl
  · show removeFirstTyping (base ++ [Bubble.user u, Bubble.typing]) ++ [Bubble.connError] = _
    rw [hrem, List.append_assoc]
    rfl

/-- Witness for C6 at a concrete failing submission. -/
theorem chat_failure_spec_witness :
    resolveChat (fun s => s) ([] ++ [Bubble.user "q".data, Bubble.typing])
      FetchResult.netError = [] ++ [Bubble.user "q".data, Bubble.connError] :=
  chat_failure_spec (fun s => s) [] "q".data FetchResult.netError (by decide) (Or.inl rfl)

/-- Claim C7.  A submission whose input trims to the empty string is rejected
before any effect: no bubble of any kind is appended and no request payload is
produced. -/
theorem empty_input_guard (input : List Char) (msgs : List Bubble)
    (h : jsTrim input = []) : submitStep input msgs = (msgs, none) := by
  unfold submitStep
  rw [if_pos h]

/-- Witness for C7 on whitespace-only input. -/
theorem empty_input_guard_witness :
    jsTrim "   ".data = [] ∧ submitStep "   ".data [] = ([], none) :=
  ⟨by decide, empty_input_guard "   ".data [] (by decide)⟩
end MainJs
